import Mathlib

/-!
Shallow embedding of `json_to_docx.py`: a JSON-to-DOCX converter that
splices tracked-change revisions or anchored comments into document
paragraphs at index ranges supplied by the input JSON.

Modelling conventions:
* Python strings are `PyStr = List Char` (sequences of code points);
  `len` is `List.length` and slicing follows Python's semantics for
  negative and out-of-range endpoints (`pySlice`).
* Python integers are `Int`.
* A docx paragraph is a style plus a list of content items: plain runs,
  `w:del` revision elements and `w:ins`-wrapped runs.
* The document is a list of paragraphs plus the list of comments
  attached via `document.add_comment`.
* Each call to `datetime.now()` is modelled by a `Nat` timestamp
  parameter threaded to the functions that consult the wall clock.
* Printing of warnings is modelled by returning a list of `Warning`
  values; `main`'s console output is a list of `Msg` values.
-/

/-- Python strings, as sequences of Unicode code points. -/
abbrev PyStr := List Char

/-- Normalise one endpoint of a Python slice for a sequence of length
`len`: a negative index counts from the end (clamped below at 0), a
non-negative one is clamped above at `len`. -/
def pyIdx (len : Nat) (i : Int) : Nat :=
  if i < 0 then ((len : Int) + i).toNat else min i.toNat len

/-- Python slice `s[i:j]` (with `s[:j] = pySlice s 0 j` and
`s[i:] = pySlice s i (s.length : Int)`). -/
def pySlice (s : PyStr) (i j : Int) : PyStr :=
  (s.take (pyIdx s.length j)).drop (pyIdx s.length i)

/-- `startsWith n h` is true when `n` is an initial segment of `h`. -/
def startsWith : PyStr → PyStr → Bool
  | [], _ => true
  | _ :: _, [] => false
  | a :: as, b :: bs => a == b && startsWith as bs

/-- Python's substring test `needle in hay`. -/
def containsSub (needle : PyStr) : PyStr → Bool
  | [] => needle.isEmpty
  | c :: rest => startsWith needle (c :: rest) || containsSub needle rest

/-- Python `str.lower()` restricted to ASCII letters (the only case the
program compares against is the ASCII literal "html"). -/
def pyLower (s : PyStr) : PyStr :=
  s.map Char.toLower

/-- Python `str.title()` on ASCII text: the first letter after a
non-letter is upper-cased, later letters of the same word lower-cased. -/
def pyTitleGo : Bool → PyStr → PyStr
  | _, [] => []
  | prevAlpha, c :: rest =>
    (if c.isAlpha then (if prevAlpha then c.toLower else c.toUpper) else c)
      :: pyTitleGo c.isAlpha rest

/-- Python `str.title()`. -/
def pyTitle (s : PyStr) : PyStr :=
  pyTitleGo false s

/-- Python `str.replace('_', ' ')`. -/
def underscoreToSpace (s : PyStr) : PyStr :=
  s.map fun c => if c = '_' then ' ' else c

/-- UTF-8 encoding of one code point, as a list of byte values. -/
def charUtf8 (c : Char) : List Nat :=
  let n := c.toNat
  if n < 128 then [n]
  else if n < 2048 then [192 + n / 64, 128 + n % 64]
  else if n < 65536 then [224 + n / 4096, 128 + (n / 64) % 64, 128 + n % 64]
  else [240 + n / 262144, 128 + (n / 4096) % 64, 128 + (n / 64) % 64, 128 + n % 64]

/-- UTF-8 encoding of a string, as a list of byte values. -/
def utf8Bytes (s : PyStr) : List Nat :=
  (s.map charUtf8).flatten

/-- `c` is an ASCII code point. -/
def asciiChar (c : Char) : Bool :=
  c.toNat < 128

/-- One item of a paragraph's XML content:
* `run t` — a plain `w:r` whose `w:t` holds `t`;
* `del author date t` — a `w:r` holding a `w:del` revision element with
  author and date attributes whose `w:t` holds the deleted text `t`;
* `ins author date t` — a `w:ins` element with author and date
  attributes wrapping a `w:r` whose `w:t` holds `t`. -/
inductive ParaItem where
  | run (text : PyStr)
  | del (author : PyStr) (date : Nat) (text : PyStr)
  | ins (author : PyStr) (date : Nat) (text : PyStr)
deriving DecidableEq

/-- Paragraph style, as set by `add_paragraph` / `add_heading` /
the list-style assignments in the HTML walker. -/
inductive PStyle where
  | normal
  | heading (level : Nat)
  | listBullet
  | listNumber
deriving DecidableEq

/-- A docx paragraph: a style and its content items. -/
structure Paragraph where
  style : PStyle
  items : List ParaItem
deriving DecidableEq

/-- The texts of `paragraph.runs` in python-docx: direct `w:r` children
of the `w:p`.  A run holding a `w:del` contributes its own (empty) text;
a run wrapped inside `w:ins` is not a direct child and is omitted. -/
def Paragraph.runTexts (p : Paragraph) : List PyStr :=
  p.items.foldr
    (fun it acc =>
      match it with
      | .run t => t :: acc
      | .del _ _ _ => [] :: acc
      | .ins _ _ _ => acc)
    []

/-- `paragraph.text` in python-docx: concatenation of the texts of the
direct runs. -/
def Paragraph.text (p : Paragraph) : PyStr :=
  p.runTexts.flatten

/-- Concatenation of all run texts at any nesting level, the inserted
(`w:ins`) runs included but the `w:del` deletion payloads excluded: the
text a reader sees with all revisions accepted. -/
def Paragraph.fullRunText (p : Paragraph) : PyStr :=
  (p.items.map fun it =>
    match it with
    | .run t => t
    | .del _ _ _ => []
    | .ins _ _ t => t).flatten

/-- The deleted texts recorded inside `w:del` elements of a paragraph. -/
def Paragraph.delTexts (p : Paragraph) : List PyStr :=
  p.items.filterMap fun it =>
    match it with
    | .del _ _ t => some t
    | _ => none

/-- The texts recorded inside `w:ins` elements of a paragraph. -/
def Paragraph.insTexts (p : Paragraph) : List PyStr :=
  p.items.filterMap fun it =>
    match it with
    | .ins _ _ t => some t
    | _ => none

/-- `paragraph.clear()`: remove all content, keep the style. -/
def Paragraph.clear (p : Paragraph) : Paragraph :=
  { p with items := [] }

/-- `paragraph.add_run(t)`. -/
def Paragraph.addRun (p : Paragraph) (t : PyStr) : Paragraph :=
  { p with items := p.items ++ [ParaItem.run t] }

/-- Content of `add_paragraph(text)` / `add_heading(text)`: a single run
when the text is non-empty, nothing otherwise. -/
def ofText (t : PyStr) : List ParaItem :=
  if t = [] then [] else [ParaItem.run t]

/-- A comment attached through `document.add_comment`: the texts of the
anchor runs, the comment body, author and initials. -/
structure DocComment where
  anchors : List PyStr
  text : PyStr
  author : PyStr
  initials : PyStr
deriving DecidableEq

/-- The document being built: its paragraphs in order and the comments
attached so far. -/
structure Doc where
  blocks : List Paragraph
  comments : List DocComment
deriving DecidableEq

/-- A warning printed to the console. -/
inductive Warning where
  | invalidTrackRange (startIdx endIdx : Int) (textLen : Nat)
  | invalidCommentRange (startIdx endIdx : Int) (textLen : Nat)
  | couldNotAddComment
deriving DecidableEq

/-- `create_revision_element(comment_text)`: a `w:del` element with
author "Reviewer" and the wall-clock date, holding the deleted text.
The caller appends it to a fresh empty run; the composite is modelled as
one `ParaItem.del`. -/
def createRevisionElement (date : Nat) (commentText : PyStr) : ParaItem :=
  ParaItem.del "Reviewer".toList date commentText

/-- `add_track_change_to_paragraph(paragraph, start_index, end_index,
comment_text)`.  Returns the rebuilt paragraph and the warnings
printed. -/
def addTrackChangeToParagraph (date : Nat) (p : Paragraph)
    (startIdx endIdx : Int) (commentText : PyStr) :
    Paragraph × List Warning :=
  let text := p.text
  if startIdx ≥ (text.length : Int) ∨ endIdx > (text.length : Int) ∨
      startIdx ≥ endIdx then
    (p, [Warning.invalidTrackRange startIdx endIdx text.length])
  else
    let beforeChange := pySlice text 0 startIdx
    let changedText := pySlice text startIdx endIdx
    let afterChange := pySlice text endIdx (text.length : Int)
    let p1 := p.clear
    let p2 := if beforeChange ≠ [] then p1.addRun beforeChange else p1
    let p3 := { p2 with items := p2.items ++ [createRevisionElement date changedText] }
    let p4 := { p3 with items := p3.items ++ [ParaItem.ins "Reviewer".toList date commentText] }
    let p5 := if afterChange ≠ [] then p4.addRun afterChange else p4
    (p5, [])

/-- `add_comment_to_paragraph(paragraph, document, start_index,
end_index, comment_id, comment_text)`.  Returns the updated document
(its comment list may grow), the rebuilt paragraph, and the warnings
printed. -/
def addCommentToParagraph (doc : Doc) (p : Paragraph)
    (startIdx endIdx : Int) (commentId : PyStr) (commentText : PyStr) :
    Doc × Paragraph × List Warning :=
  let text := p.text
  if startIdx ≥ (text.length : Int) ∨ endIdx > (text.length : Int) ∨
      startIdx ≥ endIdx then
    (doc, p, [Warning.invalidCommentRange startIdx endIdx text.length])
  else
    let beforeComment := pySlice text 0 startIdx
    let commentedText := pySlice text startIdx endIdx
    let afterComment := pySlice text endIdx (text.length : Int)
    let p1 := p.clear
    let p2 := if beforeComment ≠ [] then p1.addRun beforeComment else p1
    let p3 := p2.addRun commentedText
    let p4 := if afterComment ≠ [] then p3.addRun afterComment else p3
    let runs := p4.runTexts
    match runs.find? (fun r => containsSub commentedText r) with
    | some r =>
      ({ doc with comments := doc.comments ++
          [⟨[r], commentText, "Reviewer".toList, "R".toList⟩] }, p4, [])
    | none =>
      ({ doc with comments := doc.comments ++
          [⟨runs, commentText, "Reviewer".toList, "R".toList⟩] }, p4, [])


/-- One entry of a section's `comments` array; each field is optional,
read with `dict.get` and a default. -/
structure CommentRec where
  start_index : Option Int := none
  end_index : Option Int := none
  comment_content : Option PyStr := none
  id : Option PyStr := none
deriving DecidableEq

/-- One section object of the input JSON array. -/
structure Item where
  field_name : Option PyStr := none
  content : Option PyStr := none
  content_type : Option PyStr := none
  comments : Option (List CommentRec) := none
deriving DecidableEq

/-- An element returned by `soup.find_all(['p','h1',...,'li'])`, in
document order.  A `listItem` is an `li` met on its own in that list
(its text was already emitted while walking its `ul`/`ol`). -/
inductive HtmlElem where
  | heading (level : Nat) (text : PyStr)
  | par (text : PyStr)
  | ulist (liTexts : List PyStr)
  | olist (liTexts : List PyStr)
  | listItem (text : PyStr)
deriving DecidableEq

/-- Apply one comment record to a paragraph, as the bodies of the
comment loops do: dispatch on `use_track_changes` after reading the
fields with their defaults. -/
def applyCommentRec (useTrack : Bool) (date : Nat) (doc : Doc)
    (p : Paragraph) (c : CommentRec) : Doc × Paragraph × List Warning :=
  let startIdx := c.start_index.getD 0
  let endIdx := c.end_index.getD 0
  let commentContent := c.comment_content.getD []
  let commentId := c.id.getD "0".toList
  if useTrack then
    let (p1, w) := addTrackChangeToParagraph date p startIdx endIdx commentContent
    (doc, p1, w)
  else
    addCommentToParagraph doc p startIdx endIdx commentId commentContent

/-- The per-paragraph comment loop of `html_to_docx_paragraphs`
(lines 175-187): walk the comment list, apply the first one whose
indices fit the paragraph text captured before the loop, then `break`. -/
def commentLoopHtml (useTrack : Bool) (date : Nat) (doc : Doc)
    (ptext : PyStr) (p : Paragraph) :
    List CommentRec → Doc × Paragraph × List Warning
  | [] => (doc, p, [])
  | c :: rest =>
    if c.start_index.getD 0 < (ptext.length : Int) ∧
        c.end_index.getD 0 ≤ (ptext.length : Int) then
      applyCommentRec useTrack date doc p c
    else
      commentLoopHtml useTrack date doc ptext p rest

/-- State of the HTML walker: the document so far and the index in
`doc.blocks` of the paragraph the Python variable `paragraph` refers
to (`none` before any assignment), plus the warnings printed. -/
structure HtmlSt where
  doc : Doc
  cur : Option Nat
  warns : List Warning
deriving DecidableEq

/-- Append a paragraph to the document and point `paragraph` at it. -/
def pushPara (st : HtmlSt) (p : Paragraph) : HtmlSt :=
  { doc := { st.doc with blocks := st.doc.blocks ++ [p] },
    cur := some st.doc.blocks.length,
    warns := st.warns }

/-- The `if comments:` block at the end of a walker iteration: run the
comment loop on the paragraph `paragraph` refers to, in place.  (When
`paragraph` was never assigned, Python would raise a `NameError`; the
inputs studied here never reach that corner.) -/
def applyAtCur (useTrack : Bool) (date : Nat) (comments : List CommentRec)
    (st : HtmlSt) : HtmlSt :=
  if comments = [] then st
  else
    match st.cur with
    | none => st
    | some i =>
      match st.doc.blocks.get? i with
      | none => st
      | some p =>
        let ptext := p.text
        let r := commentLoopHtml useTrack date st.doc ptext p comments
        { doc := { r.1 with blocks := r.1.blocks.set i r.2.1 },
          cur := st.cur,
          warns := st.warns ++ r.2.2 }

/-- One iteration of the walker's `for element in soup.find_all(...)`
loop: emit the element's paragraph(s), then run the comment block.  A
bare `li` hits `continue` and skips the comment block too. -/
def htmlWalkStep (useTrack : Bool) (date : Nat) (comments : List CommentRec)
    (st : HtmlSt) : HtmlElem → HtmlSt
  | .heading lvl t =>
    applyAtCur useTrack date comments (pushPara st ⟨PStyle.heading lvl, ofText t⟩)
  | .par t =>
    applyAtCur useTrack date comments (pushPara st ⟨PStyle.normal, ofText t⟩)
  | .ulist lis =>
    applyAtCur useTrack date comments
      (lis.foldl (fun s t => pushPara s ⟨PStyle.listBullet, [ParaItem.run t]⟩) st)
  | .olist lis =>
    applyAtCur useTrack date comments
      (lis.foldl (fun s t => pushPara s ⟨PStyle.listNumber, [ParaItem.run t]⟩) st)
  | .listItem _ => st

/-- `html_to_docx_paragraphs(document, html_content, comments,
use_track_changes)`; `parseHtml` stands for BeautifulSoup's parse and
`find_all` traversal. -/
def htmlToDocxParagraphs (parseHtml : PyStr → List HtmlElem)
    (useTrack : Bool) (date : Nat) (doc : Doc) (content : PyStr)
    (comments : List CommentRec) : Doc × List Warning :=
  if content = [] then (doc, [])
  else
    let st := (parseHtml content).foldl
      (htmlWalkStep useTrack date comments) ⟨doc, none, []⟩
    (st.doc, st.warns)

/-- The comment loop of the plain-text branch of
`process_json_to_docx` (lines 213-222): every comment of the section is
applied in order, with no validity filter and no break. -/
def textCommentFold (useTrack : Bool) (date : Nat)
    (acc : Doc × Paragraph × List Warning) (c : CommentRec) :
    Doc × Paragraph × List Warning :=
  let (d, p, w) := acc
  let r := applyCommentRec useTrack date d p c
  (r.1, r.2.1, w ++ r.2.2)

/-- The body of `process_json_to_docx`'s `for item in json_data` loop. -/
def processItem (parseHtml : PyStr → List HtmlElem) (useTrack : Bool)
    (date : Nat) (acc : Doc × List Warning) (item : Item) :
    Doc × List Warning :=
  let (doc, warns) := acc
  let fieldName := item.field_name.getD []
  let content := item.content.getD []
  let contentType := item.content_type.getD "text".toList
  let comments := item.comments.getD []
  let doc1 :=
    if fieldName ≠ [] then
      { doc with blocks := doc.blocks ++
          [⟨PStyle.heading 1, ofText (pyTitle (underscoreToSpace fieldName))⟩] }
    else doc
  let (doc2, ws) :=
    if pyLower contentType = "html".toList then
      htmlToDocxParagraphs parseHtml useTrack date doc1 content comments
    else
      let p : Paragraph := ⟨PStyle.normal, ofText content⟩
      let r := comments.foldl (textCommentFold useTrack date) (doc1, p, [])
      ({ r.1 with blocks := r.1.blocks ++ [r.2.1] }, r.2.2)
  let doc3 := { doc2 with blocks := doc2.blocks ++ [⟨PStyle.normal, []⟩] }
  (doc3, warns ++ ws)

/-- `process_json_to_docx(json_data, output_filename,
use_track_changes)`, up to the final `document.save` (modelled at the
`main` level). -/
def processJsonToDocx (parseHtml : PyStr → List HtmlElem) (useTrack : Bool)
    (date : Nat) (items : List Item) : Doc × List Warning :=
  items.foldl (processItem parseHtml useTrack date) (⟨[], []⟩, [])

/-- The parsed command-line arguments. -/
structure ArgsR where
  input : PyStr
  output : PyStr
  trackchanges : Bool
  comments : Bool
deriving DecidableEq

/-- An argument argparse treats as positional: anything but a
multi-character token beginning with '-' (the bare "-" is positional). -/
def isPositionalArg : PyStr → Bool
  | '-' :: _ :: _ => false
  | _ => true

/-- Worker for `parseArgs`: split the argument vector into the two flag
booleans and the positional arguments, then bind `input` and `output`
(defaulting `output` to "output.docx"); any other option-like argument,
a missing `input` or extra positionals are an argparse error (`none`). -/
def parseArgsGo : List PyStr → List PyStr → Bool → Bool → Option ArgsR
  | [], pos, t, c =>
    match pos with
    | [i] => some ⟨i, "output.docx".toList, t, c⟩
    | [i, o] => some ⟨i, o, t, c⟩
    | _ => none
  | a :: rest, pos, t, c =>
    if a = "--trackchanges".toList then parseArgsGo rest pos true c
    else if a = "--comments".toList then parseArgsGo rest pos t true
    else if isPositionalArg a then parseArgsGo rest (pos ++ [a]) t c
    else none

/-- The `argparse` configuration of `main`:
`<input> [output] [--trackchanges] [--comments]`. -/
def parseArgs (argv : List PyStr) : Option ArgsR :=
  parseArgsGo argv [] false false

/-- `use_track_changes` as `main` computes it: `True` by default,
`False` when `--comments` is passed (whatever `--trackchanges` says). -/
def useTrackOf (a : ArgsR) : Bool :=
  if a.comments then false else if a.trackchanges then true else true

/-- Outcome of reading the input: the content, or the exception the
`open`/`read` raised. -/
inductive ReadOutcome where
  | ok (content : PyStr)
  | fileNotFound
  | readError (msg : PyStr)
deriving DecidableEq

/-- Outcome of the document-assembly phase (`process_json_to_docx` plus
`document.save`), which runs under a `try`/`except`. -/
inductive AssembleOutcome where
  | ok
  | raised (msg : PyStr)
deriving DecidableEq

/-- A console message printed by `main` (warnings aside). -/
inductive Msg where
  | errFileNotFound (path : PyStr)
  | errReadingFile (msg : PyStr)
  | errParsingJson (msg : PyStr)
  | creatingDocument (mode : PyStr)
  | documentSavedAs (path : PyStr)
  | documentCreated
  | errCreatingDocument (msg : PyStr)
deriving DecidableEq

/-- Whether a console message reports an error. -/
def Msg.isError : Msg → Bool
  | .errFileNotFound _ => true
  | .errReadingFile _ => true
  | .errParsingJson _ => true
  | .errCreatingDocument _ => true
  | _ => false

/-- The observable result of `main`: the process exit code, the
messages printed, and the path the document was saved to (if any). -/
structure MainResult where
  exitCode : Nat
  printed : List Msg
  saved : Option PyStr
deriving DecidableEq

/-- Where `main` takes the JSON text from: stdin when the input
argument is "-", the named file otherwise. -/
def resolveContent (a : ArgsR) (stdinContent : PyStr)
    (fileRead : ReadOutcome) : ReadOutcome :=
  if a.input = "-".toList then ReadOutcome.ok stdinContent else fileRead

/-- The body of `main` after argument parsing: resolve the input,
parse the JSON (`jsonLoads` stands for `json.loads`), then assemble and
save the document (`assemble` stands for the outcome of the
`try` block around `process_json_to_docx`). -/
def mainCore (jsonLoads : PyStr → Except PyStr Unit)
    (assemble : AssembleOutcome) (a : ArgsR) (stdinContent : PyStr)
    (fileRead : ReadOutcome) : MainResult :=
  match resolveContent a stdinContent fileRead with
  | .fileNotFound => ⟨1, [Msg.errFileNotFound a.input], none⟩
  | .readError e => ⟨1, [Msg.errReadingFile e], none⟩
  | .ok content =>
    match jsonLoads content with
    | .error e => ⟨1, [Msg.errParsingJson e], none⟩
    | .ok _ =>
      let modeStr := if useTrackOf a then "track changes".toList else "comments".toList
      match assemble with
      | .raised e =>
        ⟨1, [Msg.creatingDocument modeStr, Msg.errCreatingDocument e], none⟩
      | .ok =>
        ⟨0, [Msg.creatingDocument modeStr, Msg.documentSavedAs a.output,
             Msg.documentCreated], some a.output⟩

/-- Author/date metadata carried by a content item's revision element
(`w:del` or `w:ins`), if any. -/
def ParaItem.revMeta : ParaItem → List (PyStr × Nat)
  | .run _ => []
  | .del a d _ => [(a, d)]
  | .ins a d _ => [(a, d)]

/-- Author/date metadata of all revision elements of a paragraph. -/
def Paragraph.revMeta (p : Paragraph) : List (PyStr × Nat) :=
  (p.items.map ParaItem.revMeta).flatten

/-- Author/date metadata of all revision elements of a document. -/
def Doc.revMeta (doc : Doc) : List (PyStr × Nat) :=
  (doc.blocks.map Paragraph.revMeta).flatten

/-- Normalise the metadata of a revision element: set its author to
"Reviewer" and its date to `n` (all revision elements the program emits
carry author "Reviewer", so at `n = 0` this is exactly erasure of the
wall-clock date attributes). -/
def ParaItem.setRevMeta (n : Nat) : ParaItem → ParaItem
  | .run t => .run t
  | .del _ _ t => .del "Reviewer".toList n t
  | .ins _ _ t => .ins "Reviewer".toList n t

/-- Normalise the revision metadata of every item of a paragraph. -/
def Paragraph.setRevMeta (n : Nat) (p : Paragraph) : Paragraph :=
  { p with items := p.items.map (ParaItem.setRevMeta n) }

/-- Normalise the revision metadata of every paragraph of a document. -/
def Doc.setRevMeta (n : Nat) (doc : Doc) : Doc :=
  { doc with blocks := doc.blocks.map (Paragraph.setRevMeta n) }

/-- Normalise the revision metadata inside a walker state. -/
def HtmlSt.setRevMeta (n : Nat) (st : HtmlSt) : HtmlSt :=
  ⟨st.doc.setRevMeta n, st.cur, st.warns⟩

/-- The paragraph produced by applying one comment record, which does
not depend on the document state threaded alongside. -/
def applyCommentRecPara (useTrack : Bool) (date : Nat) (p : Paragraph)
    (c : CommentRec) : Paragraph :=
  (applyCommentRec useTrack date ⟨[], []⟩ p c).2.1

/-- The paragraph produced by the plain-text branch's comment loop:
every comment of the section applied in list order. -/
def applyCommentsText (useTrack : Bool) (date : Nat)
    (comments : List CommentRec) (p : Paragraph) : Paragraph :=
  comments.foldl (applyCommentRecPara useTrack date) p

/-! ## Slicing lemmas -/

theorem pyIdx_of_nonneg_le {len : Nat} {i : Int} (h0 : 0 ≤ i)
    (h : i ≤ (len : Int)) : pyIdx len i = i.toNat := by
  unfold pyIdx
  rw [if_neg (not_lt.mpr h0)]
  exact min_eq_left (Int.toNat_le.mpr h)

theorem pyIdx_zero (len : Nat) : pyIdx len 0 = 0 := by
  simp [pyIdx]

theorem pyIdx_len (len : Nat) : pyIdx len (len : Int) = len := by
  simp [pyIdx]

theorem pySlice_zero_left {s : PyStr} {j : Int} (h0 : 0 ≤ j)
    (h : j ≤ (s.length : Int)) : pySlice s 0 j = s.take j.toNat := by
  unfold pySlice
  rw [pyIdx_zero, pyIdx_of_nonneg_le h0 h, List.drop_zero]

theorem pySlice_to_len {s : PyStr} {i : Int} (h0 : 0 ≤ i)
    (h : i ≤ (s.length : Int)) :
    pySlice s i (s.length : Int) = s.drop i.toNat := by
  unfold pySlice
  rw [pyIdx_len, pyIdx_of_nonneg_le h0 h, List.take_length]

theorem pySlice_of_nonneg {s : PyStr} {i j : Int} (hi0 : 0 ≤ i)
    (hi : i ≤ (s.length : Int)) (hj0 : 0 ≤ j) (hj : j ≤ (s.length : Int)) :
    pySlice s i j = (s.take j.toNat).drop i.toNat := by
  unfold pySlice
  rw [pyIdx_of_nonneg_le hi0 hi, pyIdx_of_nonneg_le hj0 hj]

/-! ## C1: track-changes splicing on well-formed ranges -/

theorem trackChange_guard_false {t : PyStr} {s e : Int} (h0 : 0 ≤ s)
    (h1 : s < e) (h2 : e ≤ (t.length : Int)) :
    ¬(s ≥ (t.length : Int) ∨ e > (t.length : Int) ∨ s ≥ e) := by
  push_neg
  exact ⟨lt_of_lt_of_le h1 h2, h2, h1⟩

/-- C1: in track-changes mode, for a well-formed range
`0 ≤ start < end ≤ len(text)` on a paragraph with text `t`,
`add_track_change_to_paragraph` rebuilds the paragraph so that the
concatenation of its run texts (insertion included) is the text before
the span, then the replacement text inside the single insertion
element, then the text after the span, while the original span is
recorded exactly in the single deletion element; no warning is
printed. -/
theorem track_change_splices_text (date : Nat) (p : Paragraph)
    (startIdx endIdx : Int) (commentText : PyStr)
    (h0 : 0 ≤ startIdx) (h1 : startIdx < endIdx)
    (h2 : endIdx ≤ (p.text.length : Int)) :
    (addTrackChangeToParagraph date p startIdx endIdx commentText).1.fullRunText
        = p.text.take startIdx.toNat ++ commentText ++ p.text.drop endIdx.toNat
      ∧ (addTrackChangeToParagraph date p startIdx endIdx commentText).1.delTexts
        = [(p.text.take endIdx.toNat).drop startIdx.toNat]
      ∧ (addTrackChangeToParagraph date p startIdx endIdx commentText).1.insTexts
        = [commentText]
      ∧ (addTrackChangeToParagraph date p startIdx endIdx commentText).2 = [] := by
  have hs_le : startIdx ≤ (p.text.length : Int) :=
    le_of_lt (lt_of_lt_of_le h1 h2)
  have he0 : 0 ≤ endIdx := le_of_lt (lt_of_le_of_lt h0 h1)
  have hbefore : pySlice p.text 0 startIdx = p.text.take startIdx.toNat :=
    pySlice_zero_left h0 hs_le
  have hspan : pySlice p.text startIdx endIdx
      = (p.text.take endIdx.toNat).drop startIdx.toNat :=
    pySlice_of_nonneg h0 hs_le he0 h2
  have hafter : pySlice p.text endIdx (p.text.length : Int)
      = p.text.drop endIdx.toNat :=
    pySlice_to_len he0 h2
  unfold addTrackChangeToParagraph
  rw [if_neg (trackChange_guard_false h0 h1 h2)]
  simp only [hbefore, hspan, hafter]
  by_cases hb : p.text.take startIdx.toNat = [] <;>
    by_cases ha : p.text.drop endIdx.toNat = [] <;>
      simp [hb, ha, Paragraph.fullRunText, Paragraph.delTexts,
        Paragraph.insTexts, Paragraph.clear, Paragraph.addRun,
        createRevisionElement]

/-- Witness for `track_change_splices_text` at a concrete input. -/
theorem track_change_splices_text_witness :
    ((0 : Int) ≤ 1 ∧ (1 : Int) < 3 ∧
        (3 : Int) ≤ ((Paragraph.text ⟨PStyle.normal, [ParaItem.run "hello".toList]⟩).length : Int))
      ∧ (addTrackChangeToParagraph 7 ⟨PStyle.normal, [ParaItem.run "hello".toList]⟩
          1 3 "XY".toList).1.fullRunText
        = "hXYlo".toList := by
  refine ⟨⟨by decide, by decide, by decide⟩, ?_⟩
  have h := track_change_splices_text 7 ⟨PStyle.normal, [ParaItem.run "hello".toList]⟩
    1 3 "XY".toList (by decide) (by decide) (by decide)
  rw [h.1]
  decide

/-! ## C2: comments mode on well-formed ranges -/

theorem startsWith_refl (s : PyStr) : startsWith s s = true := by
  induction s with
  | nil => rfl
  | cons c rest ih => simp [startsWith, ih]

theorem containsSub_refl (s : PyStr) : containsSub s s = true := by
  cases s with
  | nil => rfl
  | cons c rest => simp [containsSub, startsWith_refl]

theorem find_anchor (runs : List PyStr) (sp : PyStr) (hmem : sp ∈ runs) :
    ∃ r, runs.find? (fun x => containsSub sp x) = some r
      ∧ containsSub sp r = true ∧ r ∈ runs := by
  rcases hf : runs.find? (fun x => containsSub sp x) with _ | r
  · exact absurd (containsSub_refl sp)
      (by simpa using List.find?_eq_none.mp hf sp hmem)
  · exact ⟨r, rfl, by simpa using List.find?_some hf,
      List.mem_of_find?_eq_some hf⟩

theorem take_span_drop (t : PyStr) (s' e' : Nat) (hse : s' ≤ e') :
    t.take s' ++ ((t.take e').drop s' ++ t.drop e') = t := by
  have h1 : (t.take e').take s' = t.take s' := by
    rw [List.take_take, min_eq_left hse]
  calc t.take s' ++ ((t.take e').drop s' ++ t.drop e')
      = ((t.take e').take s' ++ (t.take e').drop s') ++ t.drop e' := by
        rw [h1, List.append_assoc]
    _ = t.take e' ++ t.drop e' := by rw [List.take_append_drop]
    _ = t := List.take_append_drop e' t

/-- C2: in comments mode, for a well-formed range
`0 ≤ start < end ≤ len(text)`, `add_comment_to_paragraph` keeps the
paragraph's concatenated run text equal to the original text, split
into at most three runs, and attaches one comment with the given body,
author "Reviewer" and initials "R", anchored to a run that contains the
span text; no warning is printed. -/
theorem comment_mode_preserves_text (doc : Doc) (p : Paragraph)
    (startIdx endIdx : Int) (commentId commentText : PyStr)
    (h0 : 0 ≤ startIdx) (h1 : startIdx < endIdx)
    (h2 : endIdx ≤ (p.text.length : Int)) :
    (addCommentToParagraph doc p startIdx endIdx commentId commentText).2.1.text
        = p.text
      ∧ (addCommentToParagraph doc p startIdx endIdx commentId commentText).2.1.runTexts.length ≤ 3
      ∧ (∃ anchor,
          (addCommentToParagraph doc p startIdx endIdx commentId commentText).1.comments
            = doc.comments ++ [⟨[anchor], commentText, "Reviewer".toList, "R".toList⟩]
          ∧ containsSub ((p.text.take endIdx.toNat).drop startIdx.toNat) anchor = true
          ∧ anchor ∈ (addCommentToParagraph doc p startIdx endIdx commentId commentText).2.1.runTexts)
      ∧ (addCommentToParagraph doc p startIdx endIdx commentId commentText).2.2 = [] := by
  have hs_le : startIdx ≤ (p.text.length : Int) :=
    le_of_lt (lt_of_lt_of_le h1 h2)
  have he0 : 0 ≤ endIdx := le_of_lt (lt_of_le_of_lt h0 h1)
  have hguard := trackChange_guard_false h0 h1 h2
  have hbefore : pySlice p.text 0 startIdx = p.text.take startIdx.toNat :=
    pySlice_zero_left h0 hs_le
  have hspan : pySlice p.text startIdx endIdx
      = (p.text.take endIdx.toNat).drop startIdx.toNat :=
    pySlice_of_nonneg h0 hs_le he0 h2
  have hafter : pySlice p.text endIdx (p.text.length : Int)
      = p.text.drop endIdx.toNat :=
    pySlice_to_len he0 h2
  have hsn : startIdx.toNat ≤ endIdx.toNat := Int.toNat_le_toNat (le_of_lt h1)
  unfold addCommentToParagraph
  rw [if_neg hguard]
  simp only [hbefore, hspan, hafter]
  have htx := take_span_drop p.text startIdx.toNat endIdx.toNat hsn
  by_cases hb : p.text.take startIdx.toNat = [] <;>
    by_cases ha : p.text.drop endIdx.toNat = [] <;>
      simp only [hb, ha, ne_eq, not_true_eq_false, not_false_eq_true,
        if_true, if_false, ite_true, ite_false, Paragraph.clear,
        Paragraph.addRun, List.nil_append, List.append_nil]
  · obtain ⟨r, hf, hr, hrm⟩ := find_anchor
      [(p.text.take endIdx.toNat).drop startIdx.toNat]
      ((p.text.take endIdx.toNat).drop startIdx.toNat) (by simp)
    simp only [Paragraph.runTexts, List.foldr] at hrm ⊢
    rw [hf]
    rw [hb, ha] at htx
    refine ⟨?_, by simp, ⟨r, by simp, hr, by simpa using hrm⟩, rfl⟩
    simpa [Paragraph.text, Paragraph.runTexts] using htx
  · obtain ⟨r, hf, hr, hrm⟩ := find_anchor
      [(p.text.take endIdx.toNat).drop startIdx.toNat, p.text.drop endIdx.toNat]
      ((p.text.take endIdx.toNat).drop startIdx.toNat) (by simp)
    simp only [Paragraph.runTexts, List.foldr] at hrm ⊢
    rw [hf]
    rw [hb] at htx
    refine ⟨?_, by simp, ⟨r, by simp, hr, by simpa using hrm⟩, rfl⟩
    simpa [Paragraph.text, Paragraph.runTexts] using htx
  · obtain ⟨r, hf, hr, hrm⟩ := find_anchor
      [p.text.take startIdx.toNat, (p.text.take endIdx.toNat).drop startIdx.toNat]
      ((p.text.take endIdx.toNat).drop startIdx.toNat) (by simp)
    simp only [Paragraph.runTexts, List.foldr] at hrm ⊢
    rw [hf]
    rw [ha] at htx
    refine ⟨?_, by simp, ⟨r, by simp, hr, by simpa using hrm⟩, rfl⟩
    simpa [Paragraph.text, Paragraph.runTexts] using htx
  · obtain ⟨r, hf, hr, hrm⟩ := find_anchor
      [p.text.take startIdx.toNat, (p.text.take endIdx.toNat).drop startIdx.toNat,
        p.text.drop endIdx.toNat]
      ((p.text.take endIdx.toNat).drop startIdx.toNat) (by simp)
    simp only [Paragraph.runTexts, List.foldr] at hrm ⊢
    rw [hf]
    refine ⟨?_, by simp, ⟨r, by simp, hr, by simpa using hrm⟩, rfl⟩
    simpa [Paragraph.text, Paragraph.runTexts] using htx

/-- Witness for `comment_mode_preserves_text` at a concrete input. -/
theorem comment_mode_preserves_text_witness :
    ((0 : Int) ≤ 1 ∧ (1 : Int) < 3 ∧
        (3 : Int) ≤ ((Paragraph.text ⟨PStyle.normal, [ParaItem.run "hello".toList]⟩).length : Int))
      ∧ (addCommentToParagraph ⟨[], []⟩ ⟨PStyle.normal, [ParaItem.run "hello".toList]⟩
          1 3 "1".toList "note".toList).2.1.text = "hello".toList := by
  refine ⟨⟨by decide, by decide, by decide⟩, ?_⟩
  exact (comment_mode_preserves_text ⟨[], []⟩
    ⟨PStyle.normal, [ParaItem.run "hello".toList]⟩ 1 3 "1".toList
    "note".toList (by decide) (by decide) (by decide)).1

/-! ## C3: out-of-range spans -/

/-- Counterexample to C3 as stated: the range `start = -2`, `end = 1` on
the five-character text "hello" is not well-formed (its start is
negative), yet neither function is a no-op: the guard does not catch
negative start indices, and Python's negative-index slicing splices the
text.  The track-change call turns the run text into "helXello" and the
comment call into "helello". -/
theorem negative_start_not_noop :
    ¬((0 : Int) ≤ -2)
      ∧ (addTrackChangeToParagraph 0 ⟨PStyle.normal, [ParaItem.run "hello".toList]⟩
          (-2) 1 "X".toList).1.fullRunText ≠ "hello".toList
      ∧ (addTrackChangeToParagraph 0 ⟨PStyle.normal, [ParaItem.run "hello".toList]⟩
          (-2) 1 "X".toList).2 = []
      ∧ (addCommentToParagraph ⟨[], []⟩ ⟨PStyle.normal, [ParaItem.run "hello".toList]⟩
          (-2) 1 "1".toList "X".toList).2.1.text ≠ "hello".toList
      ∧ (addCommentToParagraph ⟨[], []⟩ ⟨PStyle.normal, [ParaItem.run "hello".toList]⟩
          (-2) 1 "1".toList "X".toList).2.2 = [] := by
  refine ⟨by decide, ?_, by decide, ?_, by decide⟩ <;> decide

theorem guard_noop_of_nonneg (date : Nat) (doc : Doc) (p : Paragraph)
    (startIdx endIdx : Int) (commentId commentText : PyStr)
    (h0 : 0 ≤ startIdx)
    (h : ¬(startIdx < endIdx ∧ endIdx ≤ (p.text.length : Int))) :
    addTrackChangeToParagraph date p startIdx endIdx commentText
        = (p, [Warning.invalidTrackRange startIdx endIdx p.text.length])
      ∧ addCommentToParagraph doc p startIdx endIdx commentId commentText
        = (doc, p, [Warning.invalidCommentRange startIdx endIdx p.text.length]) := by
  have hguard : startIdx ≥ (p.text.length : Int) ∨
      endIdx > (p.text.length : Int) ∨ startIdx ≥ endIdx := by
    by_cases hse : startIdx < endIdx
    · refine Or.inr (Or.inl ?_)
      by_contra hle
      exact h ⟨hse, not_lt.mp hle⟩
    · exact Or.inr (Or.inr (not_lt.mp hse))
  constructor
  · unfold addTrackChangeToParagraph
    rw [if_pos hguard]
  · unfold addCommentToParagraph
    rw [if_pos hguard]

/-- C3 as amended: for every range with a non-negative start index that
is not well-formed, both `add_track_change_to_paragraph` and
`add_comment_to_paragraph` leave the paragraph (and the document)
exactly as they were, printing a warning.  (Ranges with a negative
start index can pass the validity check and splice the text.) -/
theorem invalid_range_nonneg_noop (date : Nat) (doc : Doc) (p : Paragraph)
    (startIdx endIdx : Int) (commentId commentText : PyStr)
    (h0 : 0 ≤ startIdx)
    (h : ¬(startIdx < endIdx ∧ endIdx ≤ (p.text.length : Int))) :
    addTrackChangeToParagraph date p startIdx endIdx commentText
        = (p, [Warning.invalidTrackRange startIdx endIdx p.text.length])
      ∧ addCommentToParagraph doc p startIdx endIdx commentId commentText
        = (doc, p, [Warning.invalidCommentRange startIdx endIdx p.text.length]) :=
  guard_noop_of_nonneg date doc p startIdx endIdx commentId commentText h0 h

/-- Witness for `invalid_range_nonneg_noop` at a concrete input. -/
theorem invalid_range_nonneg_noop_witness :
    ((0 : Int) ≤ 5
        ∧ ¬((5 : Int) < 7 ∧ (7 : Int) ≤
            ((Paragraph.text ⟨PStyle.normal, [ParaItem.run "hi".toList]⟩).length : Int)))
      ∧ addTrackChangeToParagraph 0 ⟨PStyle.normal, [ParaItem.run "hi".toList]⟩
          5 7 "X".toList
        = (⟨PStyle.normal, [ParaItem.run "hi".toList]⟩,
           [Warning.invalidTrackRange 5 7 2]) := by
  refine ⟨⟨by decide, by decide⟩, ?_⟩
  have h := invalid_range_nonneg_noop 0 ⟨[], []⟩
    ⟨PStyle.normal, [ParaItem.run "hi".toList]⟩ 5 7 "1".toList "X".toList
    (by decide) (by decide)
  simpa using h.1

/-! ## C6: index interpretation (code points vs UTF-8 bytes) -/

/-- The claim as stated: for every paragraph text and well-formed
range, the before/span/after split computed by the splicing functions
agrees with slicing the UTF-8 byte encoding of the text at the same
offsets. -/
def byteOffsetSpec : Prop :=
  ∀ (t : PyStr) (s e : Int), 0 ≤ s → s < e → e ≤ (t.length : Int) →
    utf8Bytes (pySlice t 0 s) = (utf8Bytes t).take s.toNat
      ∧ utf8Bytes (pySlice t s e) = ((utf8Bytes t).take e.toNat).drop s.toNat
      ∧ utf8Bytes (pySlice t e (t.length : Int)) = (utf8Bytes t).drop e.toNat

/-- Counterexample to C6: on the two-character text "éa" (whose UTF-8
encoding has three bytes) with the well-formed range `1..2`, the
computed before-piece is the one-character string "é", two bytes long,
while the first byte of the encoding is a single byte: the program
slices by code points, not by UTF-8 bytes. -/
theorem byte_offset_claim_false : ¬ byteOffsetSpec := by
  intro h
  have h1 := (h ['é', 'a'] 1 2 (by decide) (by decide) (by decide)).1
  exact absurd h1 (by decide)

theorem utf8Bytes_ascii (t : PyStr) (h : t.all asciiChar = true) :
    utf8Bytes t = t.map Char.toNat := by
  induction t with
  | nil => rfl
  | cons c rest ih =>
    rw [List.all_cons, Bool.and_eq_true] at h
    have hc : c.toNat < 128 := by simpa [asciiChar] using h.1
    have ih2 := ih h.2
    simp only [utf8Bytes, List.map_cons, List.flatten_cons] at ih2 ⊢
    rw [show charUtf8 c = [c.toNat] from by simp [charUtf8, hc], ih2]
    rfl

/-- C6 as amended: the comment span indices are interpreted as
code-point offsets into the paragraph text — the before/span/after
split is character `take`/`drop` at those offsets — and this agrees
with slicing the UTF-8 byte encoding only when the text is ASCII. -/
theorem offsets_are_codepoints (t : PyStr) (s e : Int)
    (h0 : 0 ≤ s) (h1 : s < e) (h2 : e ≤ (t.length : Int)) :
    pySlice t 0 s = t.take s.toNat
      ∧ pySlice t s e = (t.take e.toNat).drop s.toNat
      ∧ pySlice t e (t.length : Int) = t.drop e.toNat
      ∧ (t.all asciiChar = true →
          utf8Bytes (pySlice t 0 s) = (utf8Bytes t).take s.toNat
            ∧ utf8Bytes (pySlice t s e)
              = ((utf8Bytes t).take e.toNat).drop s.toNat
            ∧ utf8Bytes (pySlice t e (t.length : Int))
              = (utf8Bytes t).drop e.toNat) := by
  have hs_le : s ≤ (t.length : Int) := le_of_lt (lt_of_lt_of_le h1 h2)
  have he0 : 0 ≤ e := le_of_lt (lt_of_le_of_lt h0 h1)
  have hb := pySlice_zero_left h0 hs_le
  have hsp := pySlice_of_nonneg h0 hs_le he0 h2
  have ha := pySlice_to_len he0 h2
  refine ⟨hb, hsp, ha, fun hall => ?_⟩
  have hmem : ∀ x ∈ t, asciiChar x = true := List.all_eq_true.mp hall
  have hsub : ∀ (u : PyStr), (∀ x ∈ u, x ∈ t) → utf8Bytes u = u.map Char.toNat :=
    fun u hu => utf8Bytes_ascii u (List.all_eq_true.mpr fun x hx => hmem x (hu x hx))
  have htb : utf8Bytes t = t.map Char.toNat := utf8Bytes_ascii t hall
  refine ⟨?_, ?_, ?_⟩
  · rw [hb, hsub (t.take s.toNat) (fun x hx => List.take_subset _ _ hx),
      htb, List.map_take]
  · rw [hsp, hsub ((t.take e.toNat).drop s.toNat)
      (fun x hx => List.take_subset _ _ (List.drop_subset _ _ hx)),
      htb, List.map_drop, List.map_take]
  · rw [ha, hsub (t.drop e.toNat) (fun x hx => List.drop_subset _ _ hx),
      htb, List.map_drop]

/-- Witness for `offsets_are_codepoints` at a concrete input. -/
theorem offsets_are_codepoints_witness :
    ((0 : Int) ≤ 1 ∧ (1 : Int) < 2 ∧ (2 : Int) ≤ (("abc".toList : PyStr).length : Int))
      ∧ pySlice "abc".toList 1 2 = "b".toList := by
  refine ⟨⟨by decide, by decide, by decide⟩, ?_⟩
  rw [(offsets_are_codepoints "abc".toList 1 2 (by decide) (by decide)
    (by decide)).2.1]
  decide

/-! ## C8: one comment per paragraph in html mode -/

/-- C8: the per-paragraph comment loop of `html_to_docx_paragraphs`
applies exactly the first comment in list order whose `start_index` is
strictly below and whose `end_index` is at most the captured paragraph
text length, and then stops; when no comment matches, nothing happens.
All later matching comments are ignored. -/
theorem html_one_comment_per_paragraph (useTrack : Bool) (date : Nat)
    (doc : Doc) (ptext : PyStr) (p : Paragraph)
    (comments : List CommentRec) :
    commentLoopHtml useTrack date doc ptext p comments =
      match comments.find? (fun c =>
          decide (c.start_index.getD 0 < (ptext.length : Int)) &&
            decide (c.end_index.getD 0 ≤ (ptext.length : Int))) with
      | none => (doc, p, [])
      | some c => applyCommentRec useTrack date doc p c := by
  induction comments with
  | nil => rfl
  | cons c rest ih =>
    by_cases hc : c.start_index.getD 0 < (ptext.length : Int)
        ∧ c.end_index.getD 0 ≤ (ptext.length : Int)
    · rw [commentLoopHtml, if_pos hc,
        List.find?_cons_of_pos _ (by simp [hc.1, hc.2])]
    · rw [commentLoopHtml, if_neg hc, ih,
        List.find?_cons_of_neg _
          (by simp only [Bool.and_eq_true, decide_eq_true_eq]; exact hc)]

/-! ## C4: warning-and-skip behaviour on invalid ranges -/

/-- Counterexample to C4 as stated: in html mode, the comment
`start = 5`, `end = 7` does not fit the two-character paragraph "hi"
(`5 < 2` fails), so the walker's filter skips it silently — the
paragraph, the document and, contrary to the claim, the warning list
are all left untouched: no warning is ever printed for it. -/
theorem html_unfit_comment_silently_skipped :
    commentLoopHtml true 0 ⟨[], []⟩ "hi".toList
        ⟨PStyle.normal, [ParaItem.run "hi".toList]⟩
        [⟨some 5, some 7, some "X".toList, some "9".toList⟩]
      = (⟨[], []⟩, ⟨PStyle.normal, [ParaItem.run "hi".toList]⟩, []) := by
  decide

/-- C4 as amended: an invalid range with a non-negative start that
reaches `add_track_change_to_paragraph` or `add_comment_to_paragraph`
(the text content type, or an html comment passing the length filter)
prints a warning and is skipped; an html-mode comment that fails the
per-paragraph length filter is skipped silently, with no warning; and
a negative start index is not caught by the validity check at all. -/
theorem invalid_range_warning_behavior (date : Nat) (doc : Doc)
    (p : Paragraph) (startIdx endIdx : Int) (commentId commentText : PyStr)
    (c : CommentRec) (rest : List CommentRec) (useTrack : Bool)
    (ptext : PyStr) :
    (0 ≤ startIdx → ¬(startIdx < endIdx ∧ endIdx ≤ (p.text.length : Int)) →
        (addTrackChangeToParagraph date p startIdx endIdx commentText).2
            = [Warning.invalidTrackRange startIdx endIdx p.text.length]
          ∧ (addTrackChangeToParagraph date p startIdx endIdx commentText).1 = p
          ∧ (addCommentToParagraph doc p startIdx endIdx commentId commentText).2.2
            = [Warning.invalidCommentRange startIdx endIdx p.text.length]
          ∧ (addCommentToParagraph doc p startIdx endIdx commentId commentText).2.1 = p)
      ∧ (¬(c.start_index.getD 0 < (ptext.length : Int)
            ∧ c.end_index.getD 0 ≤ (ptext.length : Int)) →
          commentLoopHtml useTrack date doc ptext p (c :: rest)
            = commentLoopHtml useTrack date doc ptext p rest) := by
  constructor
  · intro h0 h
    obtain ⟨h1, h2⟩ := guard_noop_of_nonneg date doc p startIdx endIdx
      commentId commentText h0 h
    exact ⟨by rw [h1], by rw [h1], by rw [h2], by rw [h2]⟩
  · intro hc
    rw [commentLoopHtml, if_neg hc]

/-- Witness for `invalid_range_warning_behavior` at concrete inputs. -/
theorem invalid_range_warning_behavior_witness :
    ((0 : Int) ≤ 5
        ∧ ¬((5 : Int) < 7 ∧ (7 : Int) ≤
            ((Paragraph.text ⟨PStyle.normal, [ParaItem.run "hi".toList]⟩).length : Int))
        ∧ ¬(((some 3 : Option Int).getD 0 < (("hi".toList : PyStr).length : Int))
            ∧ ((some 9 : Option Int).getD 0 ≤ (("hi".toList : PyStr).length : Int))))
      ∧ (addTrackChangeToParagraph 0 ⟨PStyle.normal, [ParaItem.run "hi".toList]⟩
          5 7 "X".toList).2 = [Warning.invalidTrackRange 5 7 2]
      ∧ commentLoopHtml false 0 ⟨[], []⟩ "hi".toList
          ⟨PStyle.normal, [ParaItem.run "hi".toList]⟩
          [⟨some 3, some 9, some "X".toList, some "9".toList⟩]
        = commentLoopHtml false 0 ⟨[], []⟩ "hi".toList
            ⟨PStyle.normal, [ParaItem.run "hi".toList]⟩ [] := by
  refine ⟨⟨by decide, by decide, by decide⟩, ?_, ?_⟩
  · have h := (invalid_range_warning_behavior 0 ⟨[], []⟩
      ⟨PStyle.normal, [ParaItem.run "hi".toList]⟩ 5 7 "1".toList "X".toList
      ⟨some 3, some 9, some "X".toList, some "9".toList⟩ [] false
      "hi".toList).1 (by decide) (by decide)
    simpa using h.1
  · exact (invalid_range_warning_behavior 0 ⟨[], []⟩
      ⟨PStyle.normal, [ParaItem.run "hi".toList]⟩ 5 7 "1".toList "X".toList
      ⟨some 3, some 9, some "X".toList, some "9".toList⟩ [] false
      "hi".toList).2 (by decide)

/-! ## C5: exit status and messages of `main` -/

/-- C5: `main` exits non-zero exactly when reading the named input file
fails, the JSON does not parse, or document assembly raises; this is
also exactly when an error message is printed.  Otherwise it saves the
document to the output path and prints the success messages. -/
theorem main_error_exit_iff (jsonLoads : PyStr → Except PyStr Unit)
    (assemble : AssembleOutcome) (a : ArgsR) (stdinContent : PyStr)
    (fileRead : ReadOutcome) :
    ((mainCore jsonLoads assemble a stdinContent fileRead).exitCode ≠ 0 ↔
        (resolveContent a stdinContent fileRead = ReadOutcome.fileNotFound
          ∨ (∃ e, resolveContent a stdinContent fileRead = ReadOutcome.readError e)
          ∨ (∃ content e,
              resolveContent a stdinContent fileRead = ReadOutcome.ok content
                ∧ jsonLoads content = Except.error e)
          ∨ (∃ content,
              resolveContent a stdinContent fileRead = ReadOutcome.ok content
                ∧ jsonLoads content = Except.ok ()
                ∧ ∃ e, assemble = AssembleOutcome.raised e)))
      ∧ ((mainCore jsonLoads assemble a stdinContent fileRead).exitCode ≠ 0 ↔
          ∃ m ∈ (mainCore jsonLoads assemble a stdinContent fileRead).printed,
            m.isError = true)
      ∧ ((mainCore jsonLoads assemble a stdinContent fileRead).exitCode = 0 →
          (mainCore jsonLoads assemble a stdinContent fileRead).saved = some a.output
            ∧ Msg.documentSavedAs a.output
                ∈ (mainCore jsonLoads assemble a stdinContent fileRead).printed
            ∧ Msg.documentCreated
                ∈ (mainCore jsonLoads assemble a stdinContent fileRead).printed) := by
  unfold mainCore
  rcases hres : resolveContent a stdinContent fileRead with content | _ | e <;>
    simp only [hres]
  · rcases hjl : jsonLoads content with e | u <;> simp only [hjl]
    · simp [Msg.isError, hjl]
    · rcases assemble with _ | e <;>
        simp [Msg.isError, hjl]
  · simp [Msg.isError]
  · simp [Msg.isError]

/-- Witness for `main_error_exit_iff` at a concrete input. -/
theorem main_error_exit_iff_witness :
    (mainCore (fun _ => Except.ok ()) AssembleOutcome.ok
        ⟨"in.json".toList, "out.docx".toList, false, false⟩ []
        (ReadOutcome.ok "[]".toList)).saved = some "out.docx".toList := by
  exact ((main_error_exit_iff (fun _ => Except.ok ()) AssembleOutcome.ok
    ⟨"in.json".toList, "out.docx".toList, false, false⟩ []
    (ReadOutcome.ok "[]".toList)).2.2 (by decide)).1

/-! ## C7: command-line interface -/

theorem parseArgsGo_positional (i : PyStr) (rest pos : List PyStr)
    (t c : Bool) (hi : isPositionalArg i = true) :
    parseArgsGo (i :: rest) pos t c = parseArgsGo rest (pos ++ [i]) t c := by
  have h1 : i ≠ "--trackchanges".toList := by
    intro he
    rw [he] at hi
    exact absurd hi (by decide)
  have h2 : i ≠ "--comments".toList := by
    intro he
    rw [he] at hi
    exact absurd hi (by decide)
  rw [parseArgsGo, if_neg h1, if_neg h2, if_pos hi]

/-- C7: the command line is `<input> [output] [--trackchanges|--comments]`:
a lone positional binds `input` with `output` defaulting to
"output.docx"; two positionals bind both; flags may be interleaved; the
mode defaults to track changes and `--comments` selects comments mode,
also when both flags are given; input "-" makes `main` read stdin,
any other input reads the named file. -/
theorem cli_parsing_spec (i o : PyStr) (a : ArgsR) (stdinContent : PyStr)
    (fileRead : ReadOutcome) (hi : isPositionalArg i = true)
    (ho : isPositionalArg o = true) :
    parseArgs [i] = some ⟨i, "output.docx".toList, false, false⟩
      ∧ parseArgs [i, o] = some ⟨i, o, false, false⟩
      ∧ parseArgs [i, "--comments".toList]
        = some ⟨i, "output.docx".toList, false, true⟩
      ∧ parseArgs ["--trackchanges".toList, i, "--comments".toList]
        = some ⟨i, "output.docx".toList, true, true⟩
      ∧ (a.comments = true → useTrackOf a = false)
      ∧ (a.comments = false → useTrackOf a = true)
      ∧ resolveContent ⟨"-".toList, a.output, a.trackchanges, a.comments⟩
          stdinContent fileRead = ReadOutcome.ok stdinContent
      ∧ (a.input ≠ "-".toList →
          resolveContent a stdinContent fileRead = fileRead) := by
  refine ⟨?_, ?_, ?_, ?_, ?_, ?_, ?_, ?_⟩
  · rw [parseArgs, parseArgsGo_positional i [] [] false false hi]
    rfl
  · rw [parseArgs, parseArgsGo_positional i [o] [] false false hi,
      List.nil_append, parseArgsGo_positional o [] [i] false false ho]
    rfl
  · rw [parseArgs, parseArgsGo_positional i ["--comments".toList] [] false false hi,
      List.nil_append, parseArgsGo, if_neg (by decide), if_pos rfl]
    rfl
  · rw [parseArgs, parseArgsGo, if_pos rfl,
      parseArgsGo_positional i ["--comments".toList] [] true false hi,
      List.nil_append, parseArgsGo, if_neg (by decide), if_pos rfl]
    rfl
  · intro h
    simp [useTrackOf, h]
  · intro h
    simp [useTrackOf, h]
  · simp [resolveContent]
  · intro h
    rw [resolveContent, if_neg h]

/-- Witness for `cli_parsing_spec` at concrete inputs. -/
theorem cli_parsing_spec_witness :
    (isPositionalArg "in.json".toList = true
        ∧ isPositionalArg "out.docx".toList = true)
      ∧ parseArgs ["in.json".toList]
        = some ⟨"in.json".toList, "output.docx".toList, false, false⟩
      ∧ useTrackOf ⟨"x".toList, "y".toList, true, true⟩ = false := by
  refine ⟨⟨by decide, by decide⟩, ?_, ?_⟩
  · exact (cli_parsing_spec "in.json".toList "out.docx".toList
      ⟨"x".toList, "y".toList, true, true⟩ [] ReadOutcome.fileNotFound
      (by decide) (by decide)).1
  · exact (cli_parsing_spec "in.json".toList "out.docx".toList
      ⟨"x".toList, "y".toList, true, true⟩ [] ReadOutcome.fileNotFound
      (by decide) (by decide)).2.2.2.2.1 rfl

/-! ## C9: content-type dispatch -/

theorem addComment_para_indep (doc doc' : Doc) (p : Paragraph)
    (s e : Int) (cid ct : PyStr) :
    (addCommentToParagraph doc p s e cid ct).2.1
      = (addCommentToParagraph doc' p s e cid ct).2.1 := by
  unfold addCommentToParagraph
  dsimp only
  split
  · rfl
  · split <;> rfl

theorem applyCommentRec_blocks (useTrack : Bool) (date : Nat) (d : Doc)
    (p : Paragraph) (c : CommentRec) :
    (applyCommentRec useTrack date d p c).1.blocks = d.blocks := by
  cases useTrack
  · simp only [applyCommentRec, Bool.false_eq_true, if_false]
    unfold addCommentToParagraph
    dsimp only
    split
    · rfl
    · split <;> rfl
  · rfl

theorem applyCommentRec_para (useTrack : Bool) (date : Nat) (d : Doc)
    (p : Paragraph) (c : CommentRec) :
    (applyCommentRec useTrack date d p c).2.1
      = applyCommentRecPara useTrack date p c := by
  unfold applyCommentRecPara
  cases useTrack
  · simp only [applyCommentRec, Bool.false_eq_true, if_false]
    exact addComment_para_indep d ⟨[], []⟩ p _ _ _ _
  · rfl

theorem textCommentFold_spec (useTrack : Bool) (date : Nat)
    (comments : List CommentRec) :
    ∀ (d : Doc) (p : Paragraph) (w : List Warning),
      (comments.foldl (textCommentFold useTrack date) (d, p, w)).1.blocks
          = d.blocks
        ∧ (comments.foldl (textCommentFold useTrack date) (d, p, w)).2.1
          = applyCommentsText useTrack date comments p := by
  induction comments with
  | nil => exact fun d p w => ⟨rfl, rfl⟩
  | cons c cs ih =>
    intro d p w
    have hstep : textCommentFold useTrack date (d, p, w) c
        = ((applyCommentRec useTrack date d p c).1,
           (applyCommentRec useTrack date d p c).2.1,
           w ++ (applyCommentRec useTrack date d p c).2.2) := rfl
    simp only [List.foldl_cons, hstep, applyCommentsText]
    constructor
    · rw [(ih _ _ _).1, applyCommentRec_blocks]
    · rw [(ih _ _ _).2, applyCommentRec_para]
      rfl

/-- C9: a section is rendered through the HTML walker exactly when
lower-casing its `content_type` (default "text") yields "html"; for
every other value the content is emitted verbatim as a single plain
paragraph to which all of the section's comments are applied in list
order, between the optional field-name heading and the spacer
paragraph. -/
theorem content_type_dispatch (parseHtml : PyStr → List HtmlElem)
    (useTrack : Bool) (date : Nat) (doc : Doc) (warns : List Warning)
    (item : Item) :
    (pyLower (item.content_type.getD "text".toList) ≠ "html".toList →
        (processItem parseHtml useTrack date (doc, warns) item).1.blocks
          = (doc.blocks
              ++ (if item.field_name.getD [] = [] then []
                  else [⟨PStyle.heading 1,
                          ofText (pyTitle (underscoreToSpace (item.field_name.getD [])))⟩]))
            ++ [applyCommentsText useTrack date (item.comments.getD [])
                  ⟨PStyle.normal, ofText (item.content.getD [])⟩,
                ⟨PStyle.normal, []⟩])
      ∧ (pyLower (item.content_type.getD "text".toList) = "html".toList →
          processItem parseHtml useTrack date (doc, warns) item
            = (⟨(htmlToDocxParagraphs parseHtml useTrack date
                    (if item.field_name.getD [] = [] then doc
                     else { doc with blocks := doc.blocks
                        ++ [⟨PStyle.heading 1,
                              ofText (pyTitle (underscoreToSpace (item.field_name.getD [])))⟩] })
                    (item.content.getD []) (item.comments.getD [])).1.blocks
                  ++ [⟨PStyle.normal, []⟩],
                (htmlToDocxParagraphs parseHtml useTrack date
                    (if item.field_name.getD [] = [] then doc
                     else { doc with blocks := doc.blocks
                        ++ [⟨PStyle.heading 1,
                              ofText (pyTitle (underscoreToSpace (item.field_name.getD [])))⟩] })
                    (item.content.getD []) (item.comments.getD [])).1.comments⟩,
               warns ++ (htmlToDocxParagraphs parseHtml useTrack date
                    (if item.field_name.getD [] = [] then doc
                     else { doc with blocks := doc.blocks
                        ++ [⟨PStyle.heading 1,
                              ofText (pyTitle (underscoreToSpace (item.field_name.getD [])))⟩] })
                    (item.content.getD []) (item.comments.getD [])).2))
      ∧ (item.content_type = none →
          pyLower (item.content_type.getD "text".toList) ≠ "html".toList) := by
  refine ⟨fun hct => ?_, fun hct => ?_, fun hnone => ?_⟩
  · by_cases hfn : item.field_name.getD [] = []
    · have hf := textCommentFold_spec useTrack date (item.comments.getD [])
        doc ⟨PStyle.normal, ofText (item.content.getD [])⟩ []
      simp only [processItem, hfn, hct, ne_eq, not_true_eq_false,
        not_false_eq_true, ite_true, ite_false, if_false, if_true]
      rw [hf.1, hf.2]
      simp
    · have hf := textCommentFold_spec useTrack date (item.comments.getD [])
        { doc with blocks := doc.blocks
            ++ [⟨PStyle.heading 1,
                  ofText (pyTitle (underscoreToSpace (item.field_name.getD [])))⟩] }
        ⟨PStyle.normal, ofText (item.content.getD [])⟩ []
      simp only [processItem, hfn, hct, ne_eq, not_true_eq_false,
        not_false_eq_true, ite_true, ite_false, if_false, if_true]
      rw [hf.1, hf.2]
      simp
  · by_cases hfn : item.field_name.getD [] = [] <;>
      simp only [processItem, hfn, hct, ne_eq, not_true_eq_false,
        not_false_eq_true, ite_true, ite_false, if_false, if_true]
  · rw [hnone]
    decide

/-- Witness for `content_type_dispatch` at a concrete input. -/
theorem content_type_dispatch_witness :
    (pyLower ((none : Option PyStr).getD "text".toList) ≠ "html".toList)
      ∧ (processItem (fun _ => []) true 0 (⟨[], []⟩, [])
            ⟨none, some "hi".toList, none, none⟩).1.blocks
        = [⟨PStyle.normal, [ParaItem.run "hi".toList]⟩, ⟨PStyle.normal, []⟩] := by
  refine ⟨by decide, ?_⟩
  rw [(content_type_dispatch (fun _ => []) true 0 ⟨[], []⟩ []
    ⟨none, some "hi".toList, none, none⟩).1 (by decide)]
  decide

/-! ## C10: dependence on the wall clock -/

theorem runTexts_setRevMeta (n : Nat) (st : PStyle) (its : List ParaItem) :
    Paragraph.runTexts ⟨st, its.map (ParaItem.setRevMeta n)⟩
      = Paragraph.runTexts ⟨st, its⟩ := by
  induction its with
  | nil => rfl
  | cons i rest ih =>
    cases i <;>
      simp only [List.map_cons, Paragraph.runTexts, List.foldr_cons,
        ParaItem.setRevMeta] at ih ⊢ <;>
      simp [ih]

theorem text_setRevMeta (n : Nat) (p : Paragraph) :
    (p.setRevMeta n).text = p.text := by
  have h := runTexts_setRevMeta n p.style p.items
  simp only [Paragraph.text, Paragraph.setRevMeta]
  rw [show (Paragraph.runTexts { p with items := p.items.map (ParaItem.setRevMeta n) })
      = Paragraph.runTexts ⟨p.style, p.items.map (ParaItem.setRevMeta n)⟩ from rfl, h]

theorem clear_setRevMeta (n : Nat) (p : Paragraph) :
    (p.setRevMeta n).clear = p.clear.setRevMeta n := rfl

theorem addTrack_setRevMeta (n d : Nat) (p : Paragraph) (s e : Int)
    (ct : PyStr) :
    addTrackChangeToParagraph n (p.setRevMeta n) s e ct
      = ((addTrackChangeToParagraph d p s e ct).1.setRevMeta n,
         (addTrackChangeToParagraph d p s e ct).2) := by
  unfold addTrackChangeToParagraph
  dsimp only
  rw [text_setRevMeta]
  split
  · rfl
  · by_cases hb : pySlice p.text 0 s = [] <;>
      by_cases ha : pySlice p.text e (p.text.length : Int) = [] <;>
      simp [hb, ha, Paragraph.setRevMeta, Paragraph.clear, Paragraph.addRun,
        ParaItem.setRevMeta, createRevisionElement]

theorem addComment_setRevMeta (n : Nat) (doc : Doc) (p : Paragraph)
    (s e : Int) (cid ct : PyStr) :
    addCommentToParagraph (doc.setRevMeta n) (p.setRevMeta n) s e cid ct
      = ((addCommentToParagraph doc p s e cid ct).1.setRevMeta n,
         (addCommentToParagraph doc p s e cid ct).2.1.setRevMeta n,
         (addCommentToParagraph doc p s e cid ct).2.2) := by
  unfold addCommentToParagraph
  dsimp only
  rw [text_setRevMeta]
  split
  · rfl
  · by_cases hb : pySlice p.text 0 s = [] <;>
      by_cases ha : pySlice p.text e (p.text.length : Int) = [] <;>
      simp only [hb, ha, ne_eq, not_true_eq_false, not_false_eq_true,
        ite_true, ite_false, if_true, if_false, Paragraph.clear,
        Paragraph.addRun, Paragraph.setRevMeta, List.map_nil,
        List.nil_append, List.append_nil]
    all_goals
      split <;>
        simp [Doc.setRevMeta, Paragraph.setRevMeta, ParaItem.setRevMeta]

theorem applyCommentRec_setRevMeta (n d : Nat) (useTrack : Bool)
    (doc : Doc) (p : Paragraph) (c : CommentRec) :
    applyCommentRec useTrack n (doc.setRevMeta n) (p.setRevMeta n) c
      = ((applyCommentRec useTrack d doc p c).1.setRevMeta n,
         (applyCommentRec useTrack d doc p c).2.1.setRevMeta n,
         (applyCommentRec useTrack d doc p c).2.2) := by
  cases useTrack
  · simp only [applyCommentRec, Bool.false_eq_true, if_false]
    exact addComment_setRevMeta n doc p _ _ _ _
  · simp only [applyCommentRec, ite_true]
    rw [addTrack_setRevMeta n d]

theorem commentLoopHtml_setRevMeta (n d : Nat) (useTrack : Bool)
    (doc : Doc) (ptext : PyStr) (p : Paragraph)
    (comments : List CommentRec) :
    commentLoopHtml useTrack n (doc.setRevMeta n) ptext (p.setRevMeta n) comments
      = ((commentLoopHtml useTrack d doc ptext p comments).1.setRevMeta n,
         (commentLoopHtml useTrack d doc ptext p comments).2.1.setRevMeta n,
         (commentLoopHtml useTrack d doc ptext p comments).2.2) := by
  induction comments with
  | nil => rfl
  | cons c rest ih =>
    by_cases hc : c.start_index.getD 0 < (ptext.length : Int)
        ∧ c.end_index.getD 0 ≤ (ptext.length : Int)
    · simp only [commentLoopHtml, hc, if_true, ite_true]
      exact applyCommentRec_setRevMeta n d _ doc p c
    · simp only [commentLoopHtml, hc, if_false, ite_false]
      exact ih

theorem ofText_setRevMeta (n : Nat) (st : PStyle) (t : PyStr) :
    (⟨st, ofText t⟩ : Paragraph).setRevMeta n = ⟨st, ofText t⟩ := by
  by_cases ht : t = [] <;>
    simp [ofText, ht, Paragraph.setRevMeta, ParaItem.setRevMeta]

theorem runPara_setRevMeta (n : Nat) (st : PStyle) (t : PyStr) :
    (⟨st, [ParaItem.run t]⟩ : Paragraph).setRevMeta n = ⟨st, [ParaItem.run t]⟩ := by
  simp [Paragraph.setRevMeta, ParaItem.setRevMeta]

theorem emptyPara_setRevMeta (n : Nat) (st : PStyle) :
    (⟨st, []⟩ : Paragraph).setRevMeta n = ⟨st, []⟩ := by
  simp [Paragraph.setRevMeta]

theorem pushPara_setRevMeta (n : Nat) (st : HtmlSt) (p : Paragraph) :
    pushPara (st.setRevMeta n) (p.setRevMeta n) = (pushPara st p).setRevMeta n := by
  simp [pushPara, HtmlSt.setRevMeta, Doc.setRevMeta]

theorem applyAtCur_setRevMeta (n d : Nat) (useTrack : Bool)
    (comments : List CommentRec) (st : HtmlSt) :
    applyAtCur useTrack n comments (st.setRevMeta n)
      = (applyAtCur useTrack d comments st).setRevMeta n := by
  unfold applyAtCur
  by_cases hcs : comments = []
  · simp [hcs]
  · simp only [hcs, if_false, ite_false]
    cases hcur : st.cur with
    | none => simp [HtmlSt.setRevMeta, hcur]
    | some i =>
      simp only [HtmlSt.setRevMeta, Doc.setRevMeta, hcur,
        List.get?_eq_getElem?, List.getElem?_map]
      cases hget : st.doc.blocks[i]? with
      | none => simp [hget, hcur]
      | some p =>
        simp only [hget, Option.map_some']
        rw [text_setRevMeta]
        have hl := commentLoopHtml_setRevMeta n d useTrack st.doc p.text p comments
        simp only [Doc.setRevMeta] at hl
        rw [hl]
        simp [HtmlSt.setRevMeta, Doc.setRevMeta, List.map_set]

theorem pushParaFold_setRevMeta (n : Nat) (stl : PStyle) (lis : List PyStr) :
    ∀ st : HtmlSt,
      lis.foldl (fun s t => pushPara s ⟨stl, [ParaItem.run t]⟩) (st.setRevMeta n)
        = (lis.foldl (fun s t => pushPara s ⟨stl, [ParaItem.run t]⟩) st).setRevMeta n := by
  induction lis with
  | nil => exact fun st => rfl
  | cons t rest ih =>
    intro st
    simp only [List.foldl_cons]
    rw [show pushPara (st.setRevMeta n) ⟨stl, [ParaItem.run t]⟩
        = pushPara (st.setRevMeta n) ((⟨stl, [ParaItem.run t]⟩ : Paragraph).setRevMeta n)
        from by rw [runPara_setRevMeta],
      pushPara_setRevMeta, ih]

theorem htmlWalkStep_setRevMeta (n d : Nat) (useTrack : Bool)
    (comments : List CommentRec) (st : HtmlSt) (elem : HtmlElem) :
    htmlWalkStep useTrack n comments (st.setRevMeta n) elem
      = (htmlWalkStep useTrack d comments st elem).setRevMeta n := by
  cases elem with
  | heading lvl t =>
    simp only [htmlWalkStep]
    rw [show pushPara (st.setRevMeta n) ⟨PStyle.heading lvl, ofText t⟩
        = pushPara (st.setRevMeta n) ((⟨PStyle.heading lvl, ofText t⟩ : Paragraph).setRevMeta n)
        from by rw [ofText_setRevMeta],
      pushPara_setRevMeta, applyAtCur_setRevMeta n d]
  | par t =>
    simp only [htmlWalkStep]
    rw [show pushPara (st.setRevMeta n) ⟨PStyle.normal, ofText t⟩
        = pushPara (st.setRevMeta n) ((⟨PStyle.normal, ofText t⟩ : Paragraph).setRevMeta n)
        from by rw [ofText_setRevMeta],
      pushPara_setRevMeta, applyAtCur_setRevMeta n d]
  | ulist lis =>
    simp only [htmlWalkStep]
    rw [pushParaFold_setRevMeta, applyAtCur_setRevMeta n d]
  | olist lis =>
    simp only [htmlWalkStep]
    rw [pushParaFold_setRevMeta, applyAtCur_setRevMeta n d]
  | listItem t => rfl

theorem htmlWalkFold_setRevMeta (n d : Nat) (useTrack : Bool)
    (comments : List CommentRec) (elems : List HtmlElem) :
    ∀ st : HtmlSt,
      elems.foldl (htmlWalkStep useTrack n comments) (st.setRevMeta n)
        = (elems.foldl (htmlWalkStep useTrack d comments) st).setRevMeta n := by
  induction elems with
  | nil => exact fun st => rfl
  | cons e rest ih =>
    intro st
    simp only [List.foldl_cons]
    rw [htmlWalkStep_setRevMeta n d, ih]

theorem htmlToDocxParagraphs_setRevMeta (n d : Nat)
    (parseHtml : PyStr → List HtmlElem) (useTrack : Bool) (doc : Doc)
    (content : PyStr) (comments : List CommentRec) :
    htmlToDocxParagraphs parseHtml useTrack n (doc.setRevMeta n) content comments
      = ((htmlToDocxParagraphs parseHtml useTrack d doc content comments).1.setRevMeta n,
         (htmlToDocxParagraphs parseHtml useTrack d doc content comments).2) := by
  unfold htmlToDocxParagraphs
  by_cases hc : content = []
  · simp [hc]
  · simp only [hc, if_false, ite_false]
    have h := htmlWalkFold_setRevMeta n d useTrack comments (parseHtml content)
      ⟨doc, none, []⟩
    rw [show (⟨doc.setRevMeta n, none, []⟩ : HtmlSt)
        = (⟨doc, none, []⟩ : HtmlSt).setRevMeta n from rfl, h]
    rfl

theorem textFold_setRevMeta (n d : Nat) (useTrack : Bool)
    (comments : List CommentRec) :
    ∀ (doc : Doc) (p : Paragraph) (w : List Warning),
      comments.foldl (textCommentFold useTrack n) (doc.setRevMeta n, p.setRevMeta n, w)
        = ((comments.foldl (textCommentFold useTrack d) (doc, p, w)).1.setRevMeta n,
           (comments.foldl (textCommentFold useTrack d) (doc, p, w)).2.1.setRevMeta n,
           (comments.foldl (textCommentFold useTrack d) (doc, p, w)).2.2) := by
  induction comments with
  | nil => exact fun doc p w => rfl
  | cons c cs ih =>
    intro doc p w
    have hstep : ∀ (dd : Nat) (d0 : Doc) (p0 : Paragraph) (w0 : List Warning),
        textCommentFold useTrack dd (d0, p0, w0) c
          = ((applyCommentRec useTrack dd d0 p0 c).1,
             (applyCommentRec useTrack dd d0 p0 c).2.1,
             w0 ++ (applyCommentRec useTrack dd d0 p0 c).2.2) := fun _ _ _ _ => rfl
    simp only [List.foldl_cons, hstep]
    rw [applyCommentRec_setRevMeta n d]
    exact ih _ _ _

theorem processItem_setRevMeta (parseHtml : PyStr → List HtmlElem)
    (useTrack : Bool) (n d : Nat) (doc : Doc) (warns : List Warning)
    (item : Item) :
    processItem parseHtml useTrack n (doc.setRevMeta n, warns) item
      = ((processItem parseHtml useTrack d (doc, warns) item).1.setRevMeta n,
         (processItem parseHtml useTrack d (doc, warns) item).2) := by
  unfold processItem
  dsimp only
  by_cases hfn : item.field_name.getD [] = []
  · simp only [hfn, ne_eq, not_true_eq_false, ite_false, if_false]
    by_cases hct : pyLower (item.content_type.getD "text".toList) = "html".toList
    · simp only [hct, ite_true, if_true]
      rw [htmlToDocxParagraphs_setRevMeta n d]
      simp [Doc.setRevMeta, Paragraph.setRevMeta]
    · simp only [hct, ite_false, if_false]
      have ht := textFold_setRevMeta n d useTrack (item.comments.getD [])
        doc ⟨PStyle.normal, ofText (item.content.getD [])⟩ []
      rw [ofText_setRevMeta] at ht
      rw [ht]
      simp [Doc.setRevMeta, Paragraph.setRevMeta]
  · simp only [hfn, ne_eq, not_false_eq_true, ite_true, if_true]
    have hd1 : ({ doc.setRevMeta n with blocks := (doc.setRevMeta n).blocks
          ++ [⟨PStyle.heading 1,
                ofText (pyTitle (underscoreToSpace (item.field_name.getD [])))⟩] } : Doc)
        = ({ doc with blocks := doc.blocks
              ++ [⟨PStyle.heading 1,
                    ofText (pyTitle (underscoreToSpace (item.field_name.getD [])))⟩] } : Doc).setRevMeta n := by
      simp [Doc.setRevMeta, ofText_setRevMeta]
    rw [hd1]
    by_cases hct : pyLower (item.content_type.getD "text".toList) = "html".toList
    · simp only [hct, ite_true, if_true]
      rw [htmlToDocxParagraphs_setRevMeta n d]
      simp [Doc.setRevMeta, Paragraph.setRevMeta]
    · simp only [hct, ite_false, if_false]
      have ht := textFold_setRevMeta n d useTrack (item.comments.getD [])
        ({ doc with blocks := doc.blocks
            ++ [⟨PStyle.heading 1,
                  ofText (pyTitle (underscoreToSpace (item.field_name.getD [])))⟩] })
        ⟨PStyle.normal, ofText (item.content.getD [])⟩ []
      rw [ofText_setRevMeta] at ht
      rw [ht]
      simp [Doc.setRevMeta, Paragraph.setRevMeta]

theorem processFold_setRevMeta (parseHtml : PyStr → List HtmlElem)
    (useTrack : Bool) (n d : Nat) (items : List Item) :
    ∀ (doc : Doc) (warns : List Warning),
      items.foldl (processItem parseHtml useTrack n) (doc.setRevMeta n, warns)
        = ((items.foldl (processItem parseHtml useTrack d) (doc, warns)).1.setRevMeta n,
           (items.foldl (processItem parseHtml useTrack d) (doc, warns)).2) := by
  induction items with
  | nil => exact fun doc warns => rfl
  | cons it rest ih =>
    intro doc warns
    simp only [List.foldl_cons]
    rw [processItem_setRevMeta]
    exact ih (processItem parseHtml useTrack d (doc, warns) it).1
      (processItem parseHtml useTrack d (doc, warns) it).2

theorem processJsonToDocx_setRevMeta (parseHtml : PyStr → List HtmlElem)
    (useTrack : Bool) (n d : Nat) (items : List Item) :
    processJsonToDocx parseHtml useTrack n items
      = ((processJsonToDocx parseHtml useTrack d items).1.setRevMeta n,
         (processJsonToDocx parseHtml useTrack d items).2) := by
  unfold processJsonToDocx
  have h := processFold_setRevMeta parseHtml useTrack n d items ⟨[], []⟩ []
  rw [show (Doc.setRevMeta n ⟨[], []⟩) = (⟨[], []⟩ : Doc) from rfl] at h
  exact h

theorem revMeta_of_setRevMeta (n : Nat) (doc : Doc) :
    ∀ m ∈ (doc.setRevMeta n).revMeta, m = ("Reviewer".toList, n) := by
  intro m hm
  simp only [Doc.setRevMeta, Doc.revMeta, List.map_map, List.mem_flatten,
    List.mem_map, Function.comp] at hm
  obtain ⟨l, ⟨p, hp, rfl⟩, hml⟩ := hm
  simp only [Paragraph.setRevMeta, Paragraph.revMeta, List.map_map,
    List.mem_flatten, List.mem_map, Function.comp] at hml
  obtain ⟨l2, ⟨i, hi, rfl⟩, hml2⟩ := hml
  cases i with
  | run t => exact absurd hml2 (List.not_mem_nil m)
  | del a dd t => exact List.mem_singleton.mp hml2
  | ins a dd t => exact List.mem_singleton.mp hml2

/-- C10: the produced document is not a deterministic function of the
input JSON.  Every revision element of a track-changes run carries
author "Reviewer" and the run's wall-clock date; two runs of the same
input at different clock values can differ, and the outputs of any two
runs coincide once the revision metadata is normalised (they agree up
to the `w:date` attributes, whose authors are invariably "Reviewer"). -/
theorem output_depends_on_clock_only_via_dates :
    (∀ (parseHtml : PyStr → List HtmlElem) (items : List Item) (d : Nat),
        ∀ m ∈ (processJsonToDocx parseHtml true d items).1.revMeta,
          m = ("Reviewer".toList, d))
      ∧ (∃ (parseHtml : PyStr → List HtmlElem) (items : List Item) (d d' : Nat),
          d ≠ d' ∧
            processJsonToDocx parseHtml true d items
              ≠ processJsonToDocx parseHtml true d' items)
      ∧ (∀ (parseHtml : PyStr → List HtmlElem) (useTrack : Bool)
            (items : List Item) (d d' : Nat),
          (processJsonToDocx parseHtml useTrack d items).1.setRevMeta 0
              = (processJsonToDocx parseHtml useTrack d' items).1.setRevMeta 0
            ∧ (processJsonToDocx parseHtml useTrack d items).2
              = (processJsonToDocx parseHtml useTrack d' items).2) := by
  refine ⟨?_, ?_, ?_⟩
  · intro parseHtml items d m hm
    rw [processJsonToDocx_setRevMeta parseHtml true d d items] at hm
    exact revMeta_of_setRevMeta d _ m hm
  · exact ⟨fun _ => [], [⟨none, some "ab".toList, none,
      some [⟨some 0, some 1, some "X".toList, some "1".toList⟩]⟩], 0, 1,
      by decide, by decide⟩
  · intro parseHtml useTrack items d d'
    have h0 := processJsonToDocx_setRevMeta parseHtml useTrack 0 d items
    have h0' := processJsonToDocx_setRevMeta parseHtml useTrack 0 d' items
    have hC : (processJsonToDocx parseHtml useTrack d items).1.setRevMeta 0
        = (processJsonToDocx parseHtml useTrack 0 items).1 := by rw [h0]
    have hD : (processJsonToDocx parseHtml useTrack d' items).1.setRevMeta 0
        = (processJsonToDocx parseHtml useTrack 0 items).1 := by rw [h0']
    have hA : (processJsonToDocx parseHtml useTrack d items).2
        = (processJsonToDocx parseHtml useTrack 0 items).2 := by rw [h0]
    have hB : (processJsonToDocx parseHtml useTrack d' items).2
        = (processJsonToDocx parseHtml useTrack 0 items).2 := by rw [h0']
    exact ⟨hC.trans hD.symm, hA.trans hB.symm⟩

/-- Witness for `output_depends_on_clock_only_via_dates` at a concrete
input. -/
theorem output_depends_on_clock_only_via_dates_witness :
    (("Reviewer".toList, 5)
        ∈ (processJsonToDocx (fun _ => []) true 5
            [⟨none, some "ab".toList, none,
              some [⟨some 0, some 1, some "X".toList, some "1".toList⟩]⟩]).1.revMeta)
      ∧ ("Reviewer".toList, 5) = ("Reviewer".toList, 5) :=
  ⟨by decide,
   output_depends_on_clock_only_via_dates.1 (fun _ => [])
     [⟨none, some "ab".toList, none,
       some [⟨some 0, some 1, some "X".toList, some "1".toList⟩]⟩] 5
     ("Reviewer".toList, 5) (by decide)⟩
